import Mathlib

/-!
Shallow embedding of the tree-reconciliation engine of `fsync.py`
(repository p15r/fsync) together with proofs about its specification.

Conventions of the embedding:
* Python dataclasses become Lean structures; Python dict / list values of the
  remote listing become an inductive type (`RVal` / `RDict`) preserving
  insertion order.
* Python `set` construction / difference is modelled on lists, keeping the
  first of two `==`-equal elements, exactly as CPython sets do.
* File sizes are natural numbers (`st_size` and FTP `size` facts are
  non-negative integers); the float running total of `_sync_add` is modelled
  over `ℚ`, which is exact on the values the program distinguishes (zero vs
  non-zero).
* All I/O (FTP session, local filesystem) is modelled by explicit state
  passing through a `Session` record of mutation primitives and a `LocalFS`
  record of stat primitives.
-/

/-- Mirrors the `PathType` enum (fsync.py lines 36-38). -/
inductive PathType where
  | file
  | directory
deriving DecidableEq, Repr

/-- Mirrors the `FSyncPath` dataclass (fsync.py lines 44-58): `order=True`
generates comparison over the `compare=True` fields `rel_path` and `size`
(in declaration order); `path_type` and `abs_path` carry `compare=False`. -/
structure FSyncPath where
  path_type : PathType
  rel_path : String
  abs_path : String
  size : Nat
deriving DecidableEq, Repr

/-- Python `==` on `FSyncPath`: dataclass equality over the `compare=True`
fields only, i.e. two paths are equal iff `rel_path` and `size` agree;
`path_type` and `abs_path` are excluded. -/
def eqPath (a b : FSyncPath) : Bool :=
  a.rel_path == b.rel_path && a.size == b.size

/-- The (non-strict) order used by Python `sorted` on `FSyncPath`:
lexicographic on the tuple `(rel_path, size)` of `compare=True` fields. -/
def pathLe (a b : FSyncPath) : Prop :=
  a.rel_path < b.rel_path ∨ (a.rel_path = b.rel_path ∧ a.size ≤ b.size)

instance : DecidableRel pathLe := fun a b =>
  decidable_of_iff
    (a.rel_path.data < b.rel_path.data ∨ (a.rel_path = b.rel_path ∧ a.size ≤ b.size))
    (or_congr_left String.lt_iff_toList_lt.symm)

instance : IsTotal FSyncPath pathLe := by
  constructor
  intro a b
  rcases lt_trichotomy a.rel_path b.rel_path with h | h | h
  · exact Or.inl (Or.inl h)
  · rcases Nat.le_total a.size b.size with hs | hs
    · exact Or.inl (Or.inr ⟨h, hs⟩)
    · exact Or.inr (Or.inr ⟨h.symm, hs⟩)
  · exact Or.inr (Or.inl h)

instance : IsTrans FSyncPath pathLe := by
  constructor
  intro a b c hab hbc
  rcases hab with hab | ⟨hab, hab2⟩
  · rcases hbc with hbc | ⟨hbc, _⟩
    · exact Or.inl (hab.trans hbc)
    · exact Or.inl (hbc ▸ hab)
  · rcases hbc with hbc | ⟨hbc, hbc2⟩
    · exact Or.inl (hab ▸ hbc)
    · exact Or.inr ⟨hab.trans hbc, hab2.trans hbc2⟩

/-- The order `_sync_delete` sorts by (fsync.py line 308):
`rel_path` length, descending (`reverse=True`). -/
def lenGe (a b : FSyncPath) : Prop :=
  b.rel_path.length ≤ a.rel_path.length

instance : DecidableRel lenGe := fun a b =>
  show Decidable (b.rel_path.length ≤ a.rel_path.length) from inferInstance

instance : IsTotal FSyncPath lenGe :=
  ⟨fun a b => (Nat.le_total b.rel_path.length a.rel_path.length).imp id id⟩

instance : IsTrans FSyncPath lenGe :=
  ⟨fun _ _ _ hab hbc => le_trans hbc hab⟩

/-- CPython set construction walks the iterable left to right and keeps the
first of two `==`-equal elements; `seen` accumulates the kept elements. -/
def dedupAux : List FSyncPath → List FSyncPath → List FSyncPath
  | [], _ => []
  | x :: xs, seen =>
    if seen.any (fun s => eqPath s x) then dedupAux xs seen
    else x :: dedupAux xs (x :: seen)

/-- `set(l)` for a list of `FSyncPath`. -/
def pySet (l : List FSyncPath) : List FSyncPath := dedupAux l []

/-- Python set difference `set(l) - set(r)` under the dataclass equality:
the members of `set(l)` having no `==`-equal member in `r`. -/
def setDiff (l r : List FSyncPath) : List FSyncPath :=
  (pySet l).filter (fun p => !(r.any (fun q => eqPath p q)))

/-- `_calculate_delta` (fsync.py lines 256-296): `add` is the sorted set
difference source minus target, `delete` the sorted set difference target
minus source.  The log statements and the interactive `input('Continue?')`
gate are I/O and do not influence the returned value. -/
def calculateDelta (source_paths target_paths : List FSyncPath) :
    List FSyncPath × List FSyncPath :=
  (List.insertionSort pathLe (setDiff source_paths target_paths),
   List.insertionSort pathLe (setDiff target_paths source_paths))

/-- The ordering `_sync_delete` applies to its `paths` argument before
deleting anything (fsync.py line 308): sort by `rel_path` length,
longest first. -/
def deleteOrder (paths : List FSyncPath) : List FSyncPath :=
  List.insertionSort lenGe paths

/-- Boolean string-prefix test on the underlying character lists. -/
def strPre (p s : String) : Bool :=
  p.data.isPrefixOf s.data

mutual
/-- A value in the nested mapping `_list_remote` builds: either the list of
file entries stored under the key `"files"`, or a nested directory mapping.
`RDict` keeps the Python dict's insertion order. -/
inductive RVal where
  | vfiles : List FSyncPath → RVal
  | vdict : RDict → RVal

inductive RDict where
  | nil : RDict
  | cons : String → RVal → RDict → RDict
end

/-- `len` of a Python dict in the `RDict` model. -/
def rdictLen : RDict → Nat
  | .nil => 0
  | .cons _ _ rest => rdictLen rest + 1

/-- `len(v)` for a value of the nested mapping (list length or dict length). -/
def rvalLen : RVal → Nat
  | .vfiles items => items.length
  | .vdict d => rdictLen d

/-- Path concatenation as `_to_list` performs it: `if not path: path = k
else path = f'{path}/{k}'`. -/
def joinPath (p k : String) : String :=
  if p == "" then k else p ++ "/" ++ k

/-- `str(Path(p).parent)` followed by the `if path == '.': path = ''`
normalization of `_to_list` (fsync.py lines 249-251): drop the last
`/`-separated component; a single-component or empty path becomes `""`. -/
def parentPath (p : String) : String :=
  String.mk (((p.data.reverse.dropWhile (fun c => c != '/')).drop 1).reverse)

/-- The prefix reset at the head of `_to_list` (fsync.py lines 214-215):
`if path == config.target_directory: path = ''`. -/
def resetPath (cfg p : String) : String :=
  if p == cfg then "" else p

/-- `_to_list` (fsync.py lines 203-253), body of the `for k, v in
target_paths.items()` loop.  `n` is `len(target_paths)` of the dict the loop
iterates over (the early `return` guard reads it).  Besides the converted
list the function returns the dict left behind, because the loop REBINDS
`item.rel_path` of every file entry in place (line 237): callers share
those `FSyncPath` objects.  For a `"files"`-keyed list value the loop does
not restore `path`; for a dict value it recurses (a fresh call, hence a
fresh reset and a fresh `len`) and then sets `path` to its parent. -/
def toListGo (cfg : String) (n : Nat) : RDict → String → List FSyncPath × RDict
  | .nil, _ => ([], .nil)
  | .cons k (.vfiles items) rest, path =>
    if n == 1 && rvalLen (.vfiles items) == 0 then ([], .cons k (.vfiles items) rest)
    else
      let path1 := if k != "files" then joinPath path k else path
      let items2 := items.map (fun it => { it with rel_path := joinPath path1 it.rel_path })
      let res := toListGo cfg n rest path1
      (items2 ++ res.1, .cons k (.vfiles items2) res.2)
  | .cons k (.vdict sub) rest, path =>
    if n == 1 && rvalLen (.vdict sub) == 0 then ([], .cons k (.vdict sub) rest)
    else
      let path1 := if k != "files" then joinPath path k else path
      let dirs : List FSyncPath :=
        if path1 != "" then [⟨PathType.directory, path1, "", 4096⟩] else []
      let subres := toListGo cfg (rdictLen sub) sub (resetPath cfg path1)
      let res := toListGo cfg n rest (parentPath path1)
      (dirs ++ subres.1 ++ res.1, .cons k (.vdict subres.2) res.2)

/-- `_to_list(config, target_paths, path)`: the reset is applied on entry
and the loop guard reads the dict's own length. -/
def toList (cfg : String) (d : RDict) (path : String) : List FSyncPath × RDict :=
  toListGo cfg (rdictLen d) d (resetPath cfg path)

/-- Refinement spec for C5, following the claim's words: depth-first walk
with a running prefix; a `"files"` value emits one File entry per listed
name with path `prefix + name` and the listed size; any other key emits one
Directory entry and recurses with the prefix extended by that key. -/
def flattenSpec : RDict → String → List FSyncPath
  | .nil, _ => []
  | .cons _ (.vfiles items) rest, p =>
    items.map (fun it => { it with rel_path := joinPath p it.rel_path })
      ++ flattenSpec rest p
  | .cons k (.vdict sub) rest, p =>
    ⟨PathType.directory, joinPath p k, "", 4096⟩ ::
      (flattenSpec sub (joinPath p k) ++ flattenSpec rest p)

/-- Spec of the in-place effect of `_to_list` for C10: every file entry of
the nested structure gets its `rel_path` rebound to the prefix-joined
path; the dict shape is otherwise unchanged. -/
def specMutate : RDict → String → RDict
  | .nil, _ => .nil
  | .cons k (.vfiles items) rest, p =>
    .cons k (.vfiles (items.map (fun it => { it with rel_path := joinPath p it.rel_path })))
      (specMutate rest p)
  | .cons k (.vdict sub) rest, p =>
    .cons k (.vdict (specMutate sub (joinPath p k))) (specMutate rest p)

/-- A legal dict key of the nested structure: a directory name produced by
an MLSD listing — non-empty, slash-free, and distinct from the sentinel
key `"files"`. -/
def wfKey (k : String) : Bool :=
  k != "files" && k != "" && k.data.all (fun c => c != '/')

/-- A file entry as `_list_remote` builds it (fsync.py line 139): kind
`file` and empty `abs_path` (the `rel_path` holds the bare listed name). -/
def wfItem (it : FSyncPath) : Bool :=
  it.path_type == PathType.file && it.abs_path == ""

mutual
/-- Shape of a dict produced by `_list_remote`: empty, or the `"files"`
key first followed by subdirectory entries. -/
def wfDict : RDict → Bool
  | .nil => true
  | .cons k (.vfiles items) rest =>
    k == "files" && items.all wfItem && wfSubs rest
  | .cons _ (.vdict _) _ => false

/-- The subdirectory part: every entry maps a legal directory name to a
recursively well-formed dict. -/
def wfSubs : RDict → Bool
  | .nil => true
  | .cons k (.vdict sub) rest => wfKey k && wfDict sub && wfSubs rest
  | .cons _ (.vfiles _) _ => false
end

/-- Listed file names are non-empty and do not begin with `/` (true of any
name an MLSD listing returns). -/
def wfNames : RDict → Bool
  | .nil => true
  | .cons _ (.vfiles items) rest =>
    items.all (fun it => it.rel_path != "" && it.rel_path.data.head? != some '/')
      && wfNames rest
  | .cons _ (.vdict sub) rest => wfNames sub && wfNames rest

/-- A prefix that can never collide with an absolute target directory:
empty or starting with a character other than `/`. -/
def goodP (p : String) : Bool :=
  p.data.head? != some '/'

/-- The configured target directory is an absolute remote path. -/
def cfgOk (cfg : String) : Bool :=
  cfg.data.head? == some '/'

/-- Nesting depth of the nested mapping: the number of `_to_list`
(equivalently `_list_remote`) frames stacked on the deepest branch. -/
def rdictDepth : RDict → Nat
  | .nil => 0
  | .cons _ (.vfiles _) rest => rdictDepth rest
  | .cons _ (.vdict d) rest => max (rdictDepth d + 1) (rdictDepth rest)

/-- Fueled variant of `toListGo` for the recursion-limit analysis: loop
iterations stay in the same interpreter frame; only the recursive
`_to_list` call on a nested dict opens a frame, modelled by consuming one
unit of fuel (the fresh call applies the reset and reads the nested
dict's own length, exactly as `toListGo` does).  Exhausted fuel models the
`RecursionError` the interpreter raises, as `none`. -/
def toListGoF (fuel : Nat) (cfg : String) (n : Nat) :
    RDict → String → Option (List FSyncPath × RDict)
  | .nil, _ => some ([], .nil)
  | .cons k (.vfiles items) rest, path =>
    if n == 1 && rvalLen (.vfiles items) == 0 then
      some ([], .cons k (.vfiles items) rest)
    else
      let path1 := if k != "files" then joinPath path k else path
      let items2 := items.map (fun it => { it with rel_path := joinPath path1 it.rel_path })
      match toListGoF fuel cfg n rest path1 with
      | none => none
      | some res => some (items2 ++ res.1, .cons k (.vfiles items2) res.2)
  | .cons k (.vdict sub) rest, path =>
    if n == 1 && rvalLen (.vdict sub) == 0 then
      some ([], .cons k (.vdict sub) rest)
    else
      let path1 := if k != "files" then joinPath path k else path
      let dirs : List FSyncPath :=
        if path1 != "" then [⟨PathType.directory, path1, "", 4096⟩] else []
      let subOpt := match fuel with
        | 0 => none
        | f + 1 => toListGoF f cfg (rdictLen sub) sub (resetPath cfg path1)
      match subOpt with
      | none => none
      | some subres =>
        match toListGoF fuel cfg n rest (parentPath path1) with
        | none => none
        | some res =>
          some (dirs ++ subres.1 ++ res.1, .cons k (.vdict subres.2) res.2)

/-- `_to_list` called with `fuel` interpreter frames available. -/
def toListF (fuel : Nat) (cfg : String) (d : RDict) (path : String) :
    Option (List FSyncPath × RDict) :=
  match fuel with
  | 0 => none
  | f + 1 => toListGoF f cfg (rdictLen d) d (resetPath cfg path)

/-- `RECURSION_LIMIT` (fsync.py line 22), installed via
`sys.setrecursionlimit` at import time (line 26). -/
def RECURSION_LIMIT : Nat := 200

/-- A remote tree that is a single chain of directories of the given
depth, each level holding only its subdirectory (plus the `"files"` key an
MLSD listing always yields for a non-empty directory). -/
def deepRDict : Nat → RDict
  | 0 => .nil
  | n + 1 => .cons "files" (.vfiles []) (.cons "d" (.vdict (deepRDict n)) .nil)

/-- A local filesystem object under the source directory: a regular file
with its `st_size`, or a directory with its children (in the order the
recursive glob yields them). -/
inductive FsTree where
  | file : String → Nat → FsTree
  | dir : String → List FsTree → FsTree

mutual
/-- `_list_source` (fsync.py lines 163-200) over the children of the source
root, carrying the relative-path prefix `pre`: a directory is skipped when
`os.listdir` is empty (no immediate children); a file is skipped when its
stem begins with `.` (its name begins with `.`, since the stem is a prefix
of the name); `abs_path` is the source root joined with the relative path;
directories get the fixed size 4096. -/
def listSourceGo (srcRoot : String) : String → List FsTree → List FSyncPath
  | _, [] => []
  | pre, t :: rest => listSourceOne srcRoot pre t ++ listSourceGo srcRoot pre rest

/-- The entries contributed by one object of the recursive glob (the
object itself, and for a non-empty directory its subtree). -/
def listSourceOne (srcRoot : String) : String → FsTree → List FSyncPath
  | pre, .file n sz =>
    if strPre "." n then [] else
      [⟨PathType.file, joinPath pre n, joinPath srcRoot (joinPath pre n), sz⟩]
  | pre, .dir n cs =>
    if cs.isEmpty then [] else
      ⟨PathType.directory, joinPath pre n, joinPath srcRoot (joinPath pre n), 4096⟩ ::
        listSourceGo srcRoot (joinPath pre n) cs
end

/-- `_list_source(Path(srcRoot))`: the flat local enumeration. -/
def listSource (srcRoot : String) (roots : List FsTree) : List FSyncPath :=
  listSourceGo srcRoot "" roots

mutual
/-- Does this local object contain (or is) a regular file anywhere below? -/
def hasDescFile : FsTree → Bool
  | .file _ _ => true
  | .dir _ cs => hasDescFileList cs

def hasDescFileList : List FsTree → Bool
  | [] => false
  | t :: rest => hasDescFile t || hasDescFileList rest
end

/-- A remote filesystem object on the FTP server, below the target
directory. -/
inductive RemTree where
  | file : String → Nat → RemTree
  | dir : String → List RemTree → RemTree

/-- The file entries of one MLSD listing, in listing order
(fsync.py line 139). -/
def remFiles (ts : List RemTree) : List FSyncPath :=
  ts.filterMap (fun t => match t with
    | .file n sz => some ⟨PathType.file, n, "", sz⟩
    | .dir _ _ => none)

/-- Assemble the dict for one directory listing from its contents and the
already-built subdirectory entries: an empty listing yields the empty
dict; otherwise the `"files"` key (set inside the listing loop) comes
first. -/
def mkListing (ts : List RemTree) (subs : RDict) : RDict :=
  match ts with
  | [] => .nil
  | _ :: _ => .cons "files" (.vfiles (remFiles ts)) subs

mutual
/-- The subdirectory entries `_list_remote` adds after the `"files"` key:
each subdirectory name maps to the recursive listing of that
subdirectory. -/
def listRemoteSubs : List RemTree → RDict
  | [] => .nil
  | t :: rest => listRemoteSubsOne t (listRemoteSubs rest)

def listRemoteSubsOne : RemTree → RDict → RDict
  | .file _ _, acc => acc
  | .dir n cs, acc => .cons n (.vdict (mkListing cs (listRemoteSubs cs))) acc
end

/-- `_list_remote` (fsync.py lines 125-160) on the contents of one remote
directory. -/
def listRemote (ts : List RemTree) : RDict :=
  mkListing ts (listRemoteSubs ts)

/-- Python `s.split('/')` (note `''.split('/') == ['']`). -/
def splitSlashAux : List Char → List Char → List String
  | [], acc => [String.mk acc.reverse]
  | c :: cs, acc =>
    if c == '/' then String.mk acc.reverse :: splitSlashAux cs []
    else splitSlashAux cs (c :: acc)

def splitSlash (s : String) : List String :=
  splitSlashAux s.data []

/-- Strip a literal prefix from a string, or fail. -/
def stripPre (p s : String) : Option String :=
  if p.data.isPrefixOf s.data then some (String.mk (s.data.drop p.data.length)) else none

/-- One mutation against the remote tree, named by the final path
component. -/
inductive SrvOp where
  | deleteFile : String → SrvOp
  | rmdDir : String → SrvOp
  | mkdDir : String → SrvOp
  | storFile : String → Nat → SrvOp

def hasFileNamed (ts : List RemTree) (c : String) : Bool :=
  ts.any (fun t => match t with | .file n _ => n == c | .dir _ _ => false)

def hasDirNamed (ts : List RemTree) (c : String) : Bool :=
  ts.any (fun t => match t with | .dir n _ => n == c | .file _ _ => false)

def removeFileNamed (ts : List RemTree) (c : String) : List RemTree :=
  ts.filter (fun t => match t with | .file n _ => !(n == c) | .dir _ _ => true)

def removeDirNamed (ts : List RemTree) (c : String) : List RemTree :=
  ts.filter (fun t => match t with | .dir n _ => !(n == c) | .file _ _ => true)

def dirChildren? (ts : List RemTree) (c : String) : Option (List RemTree) :=
  match ts with
  | [] => none
  | .dir n sub :: rest => if n == c then some sub else dirChildren? rest c
  | .file _ _ :: rest => dirChildren? rest c

/-- Effect of one FTP mutation primitive inside one directory (§6 of the
spec fixes the collaborator contract: `DELE` requires the file to exist,
`RMD` requires an existing empty directory, `MKD` is idempotent on an
existing directory, `STOR` overwrites a file but cannot replace a
directory). -/
def srvApplyHere (ts : List RemTree) (op : SrvOp) : Option (List RemTree) :=
  match op with
  | .deleteFile n => if hasFileNamed ts n then some (removeFileNamed ts n) else none
  | .rmdDir n =>
    match dirChildren? ts n with
    | some [] => some (removeDirNamed ts n)
    | _ => none
  | .mkdDir n =>
    if hasDirNamed ts n then some ts
    else if hasFileNamed ts n then none
    else some (ts ++ [.dir n []])
  | .storFile n sz =>
    if hasDirNamed ts n then none
    else some (removeFileNamed ts n ++ [.file n sz])

/-- Rewrite the named subdirectory of a listing with `g`, failing when it
is absent. -/
def modDir (c : String) (g : List RemTree → Option (List RemTree)) :
    List RemTree → Option (List RemTree)
  | [] => none
  | .dir n sub :: rest =>
    if n == c then (g sub).map (fun s2 => .dir n s2 :: rest)
    else (modDir c g rest).map (fun r => .dir n sub :: r)
  | .file n sz :: rest => (modDir c g rest).map (fun r => .file n sz :: r)

/-- Apply a mutation at the directory reached by the component path. -/
def srvApply : List String → SrvOp → List RemTree → Option (List RemTree)
  | [], op, ts => srvApplyHere ts op
  | c :: cs, op, ts => modDir c (srvApply cs op) ts

/-- Parse an absolute remote path (always `target_directory + '/' + rel` in
fsync) and run the mutation on the server tree; unreachable or failing
operations leave the tree unchanged and report failure (an `ftplib`
exception or falsy `MKD` reply). -/
def srvRun (ts : List RemTree) (tgt abs : String) (mk : String → SrvOp) :
    List RemTree × Bool :=
  match stripPre (tgt ++ "/") abs with
  | none => (ts, false)
  | some rel =>
    match (splitSlash rel).getLast? with
    | none => (ts, false)
    | some name =>
      match srvApply (splitSlash rel).dropLast (mk name) ts with
      | some ts2 => (ts2, true)
      | none => (ts, false)

/-- The FTP mutation primitives the applier calls, as explicit state
transformers: `delete`, `rmd`, `mkd` (falsy reply = failure), and
`storbinary` (which also carries the uploaded size). -/
structure Session (σ : Type) where
  delete : σ → String → σ × Bool
  rmd : σ → String → σ × Bool
  mkd : σ → String → σ × Bool
  stor : σ → String → Nat → σ × Bool

/-- A session against the remote tree model. -/
def serverSession (tgt : String) : Session (List RemTree) :=
  { delete := fun ts abs => srvRun ts tgt abs SrvOp.deleteFile
    rmd := fun ts abs => srvRun ts tgt abs SrvOp.rmdDir
    mkd := fun ts abs => srvRun ts tgt abs SrvOp.mkdDir
    stor := fun ts abs sz => srvRun ts tgt abs (fun n => SrvOp.storFile n sz) }

/-- A session that records every attempted delete-phase operation and
succeeds or fails according to the two oracles; used to observe which
deletions `_sync_delete` actually attempts. -/
def traceSession (okF okD : String → Bool) : Session (List (String × PathType)) :=
  { delete := fun tr abs => (tr ++ [(abs, PathType.file)], okF abs)
    rmd := fun tr abs => (tr ++ [(abs, PathType.directory)], okD abs)
    mkd := fun tr _ => (tr, true)
    stor := fun tr _ _ => (tr, true) }

/-- The loop of `_sync_delete` (fsync.py lines 310-330): issue `delete` for
files and `rmd` for directories; the first exception logs an error and
returns `False`, abandoning the rest of the list. -/
def syncDeleteGo {σ : Type} (S : Session σ) (tgt : String) :
    σ → List FSyncPath → σ × Bool
  | s, [] => (s, true)
  | s, p :: rest =>
    let abs := tgt ++ "/" ++ p.rel_path
    match p.path_type with
    | .file =>
      let r := S.delete s abs
      if r.2 then syncDeleteGo S tgt r.1 rest else (r.1, false)
    | .directory =>
      let r := S.rmd s abs
      if r.2 then syncDeleteGo S tgt r.1 rest else (r.1, false)

/-- `_sync_delete` (fsync.py lines 299-330): sort by path length descending,
then delete in order, failing fast. -/
def syncDelete {σ : Type} (S : Session σ) (tgt : String) (s : σ)
    (paths : List FSyncPath) : σ × Bool :=
  syncDeleteGo S tgt s (deleteOrder paths)

/-- The `for parent in parents` loop of `_sync_add_dir` (fsync.py lines
342-349): create each ancestor from the target directory downward, failing
on a falsy `mkd` reply. -/
def mkdChain {σ : Type} (S : Session σ) : σ → String → List String → σ × Bool
  | s, _, [] => (s, true)
  | s, abs, c :: cs =>
    let abs2 := abs ++ "/" ++ c
    let r := S.mkd s abs2
    if r.2 then mkdChain S r.1 abs2 cs else (r.1, false)

/-- `_sync_add_dir` (fsync.py lines 333-351): split the entry's parent path
into components; `['.']` (a root-level entry, parent path `""` in this
model) needs no directories. -/
def syncAddDir {σ : Type} (S : Session σ) (tgt : String) (s : σ)
    (item : FSyncPath) : σ × Bool :=
  let par := parentPath item.rel_path
  if par == "" then (s, true)
  else mkdChain S s tgt (splitSlash par)

/-- Return value of `_sync_add`: `False` on failure, else the running float
total of uploaded bytes.  The total is modelled exactly, scaled by 1000
(so the 0.001 token weight of an empty file becomes 1): Python's float sum
is zero iff this natural-number sum is zero. -/
inductive AddResult where
  | failed
  | bytes : Nat → AddResult
deriving DecidableEq, Repr

/-- The local-filesystem facts `_sync_add` consults: `Path(p).is_dir()` and
`Path(p).stat().st_size` (the oracle is total; fsync only ever stats paths
produced by its own enumeration of the same tree). -/
structure LocalFS where
  isDir : String → Bool
  statSize : String → Nat

/-- The loop of `_sync_add` (fsync.py lines 363-400): skip entries that are
local directories; ensure ancestors exist (abort on failure); take the
size, giving an empty file the 0.001 token weight (1 in the scaled model);
upload, aborting on an exception; accumulate the total. -/
def syncAddGo {σ : Type} (S : Session σ) (tgt : String) (lfs : LocalFS)
    (srcDir : String) : σ → List FSyncPath → Nat → σ × AddResult
  | s, [], acc => (s, .bytes acc)
  | s, item :: rest, acc =>
    let path := srcDir ++ "/" ++ item.rel_path
    if lfs.isDir path then syncAddGo S tgt lfs srcDir s rest acc
    else
      let rd := syncAddDir S tgt s item
      if rd.2 then
        let sz := lfs.statSize path
        let w := if sz == 0 then 1 else 1000 * sz
        let ru := S.stor rd.1 (tgt ++ "/" ++ item.rel_path) sz
        if ru.2 then syncAddGo S tgt lfs srcDir ru.1 rest (acc + w)
        else (ru.1, .failed)
      else (rd.1, .failed)

/-- `_sync_add` (fsync.py lines 354-400). -/
def syncAdd {σ : Type} (S : Session σ) (tgt : String) (lfs : LocalFS)
    (srcDir : String) (s : σ) (paths : List FSyncPath) : σ × AddResult :=
  syncAddGo S tgt lfs srcDir s paths 0

/-- Python truthiness of the `_sync_add` return value as `main` tests it
(`if not bytes_transferred`): `False` and `0.0` are falsy. -/
def truthyAdd : AddResult → Bool
  | .failed => false
  | .bytes n => !(n == 0)

/-- The reconciliation pipeline of `main` from the computed inputs onward
(fsync.py lines 436-468): flatten the remote dict, compute the delta, run
the delete phase (a failure exits with status 1), then the add phase (a
falsy return exits with status 1), else exit 0.  Returns the exit status
and the final session state. -/
def mainModel {σ : Type} (S : Session σ) (s0 : σ) (lfs : LocalFS)
    (srcDir tgtDir : String) (source_paths : List FSyncPath) (remote : RDict) :
    Nat × σ :=
  let conv := (toList tgtDir remote "").1
  let delta := calculateDelta source_paths conv
  let afterDel :=
    if delta.2.isEmpty then (s0, true)
    else syncDelete S tgtDir s0 delta.2
  if !afterDel.2 then (1, afterDel.1)
  else if delta.1.isEmpty then (0, afterDel.1)
  else
    let r := syncAdd S tgtDir lfs srcDir afterDel.1 delta.1
    if truthyAdd r.2 then (0, r.1) else (1, r.1)

/-- Find a local object by name among siblings. -/
def findNode (ts : List FsTree) (c : String) : Option FsTree :=
  match ts with
  | [] => none
  | t :: rest =>
    match t with
    | .file n _ => if n == c then some t else findNode rest c
    | .dir n _ => if n == c then some t else findNode rest c

/-- Follow a component path through the local tree. -/
def nodeAt (ts : List FsTree) (comps : List String) : Option FsTree :=
  match comps with
  | [] => none
  | [c] => findNode ts c
  | c :: cs =>
    match findNode ts c with
    | some (.dir _ sub) => nodeAt sub cs
    | _ => none

/-- The local-filesystem oracle corresponding to a source tree rooted at
`srcRoot`. -/
def lfsOf (srcRoot : String) (roots : List FsTree) : LocalFS :=
  { isDir := fun path =>
      match stripPre (srcRoot ++ "/") path with
      | some rel =>
        match nodeAt roots (splitSlash rel) with
        | some (.dir _ _) => true
        | _ => false
      | none => false
    statSize := fun path =>
      match stripPre (srcRoot ++ "/") path with
      | some rel =>
        match nodeAt roots (splitSlash rel) with
        | some (.file _ sz) => sz
        | some (.dir _ _) => 4096
        | none => 0
      | none => 0 }

/-- One full reconciliation pass: enumerate the local tree, list and
flatten the remote tree, compute and apply the delta against the remote
server model; returns the exit status and the remote tree afterwards. -/
def fullRun (srcRoot tgtDir : String) (src : List FsTree) (server : List RemTree) :
    Nat × List RemTree :=
  mainModel (serverSession tgtDir) server (lfsOf srcRoot src) srcRoot tgtDir
    (listSource srcRoot src) (listRemote server)

/-- Whether the delete-phase primitive for one entry succeeds under the
per-path oracles (`okF` for `delete`, `okD` for `rmd`). -/
def opOk (okF okD : String → Bool) (tgt : String) (p : FSyncPath) : Bool :=
  match p.path_type with
  | .file => okF (tgt ++ "/" ++ p.rel_path)
  | .directory => okD (tgt ++ "/" ++ p.rel_path)

/-!  ### Theorems  -/

/-- Propositional form of `eqPath`. -/
theorem eqPath_iff {a b : FSyncPath} :
    eqPath a b = true ↔ a.rel_path = b.rel_path ∧ a.size = b.size := by
  simp [eqPath]

theorem eqPath_refl (a : FSyncPath) : eqPath a a = true := by
  simp [eqPath]

theorem eqPath_symm {a b : FSyncPath} (h : eqPath a b = true) : eqPath b a = true := by
  rw [eqPath_iff] at h ⊢
  exact ⟨h.1.symm, h.2.symm⟩

theorem eqPath_trans {a b c : FSyncPath} (h1 : eqPath a b = true)
    (h2 : eqPath b c = true) : eqPath a c = true := by
  rw [eqPath_iff] at h1 h2 ⊢
  exact ⟨h1.1.trans h2.1, h1.2.trans h2.2⟩

theorem mem_of_mem_dedupAux {l seen : List FSyncPath} {x : FSyncPath}
    (h : x ∈ dedupAux l seen) : x ∈ l := by
  induction l generalizing seen with
  | nil => simp [dedupAux] at h
  | cons y ys ih =>
    by_cases hs : seen.any (fun s => eqPath s y) = true
    · simp only [dedupAux, hs, if_pos] at h
      exact List.mem_cons_of_mem _ (ih h)
    · simp only [dedupAux, hs, if_neg, Bool.not_eq_true] at h
      rcases List.mem_cons.mp h with h | h
      · exact h ▸ List.mem_cons_self _ _
      · exact List.mem_cons_of_mem _ (ih h)

theorem dedupAux_covers {l : List FSyncPath} {x : FSyncPath} (hx : x ∈ l) :
    ∀ seen : List FSyncPath, (∃ s ∈ seen, eqPath s x = true) ∨
      ∃ a ∈ dedupAux l seen, eqPath a x = true := by
  induction l with
  | nil => cases hx
  | cons y ys ih =>
    intro seen
    by_cases hs : seen.any (fun s => eqPath s y) = true
    · rcases List.mem_cons.mp hx with rfl | hx'
      · rcases List.any_eq_true.mp hs with ⟨s, hsmem, hseq⟩
        exact Or.inl ⟨s, hsmem, hseq⟩
      · rcases ih hx' seen with h | h
        · exact Or.inl h
        · simp only [dedupAux, hs, if_pos]
          exact Or.inr h
    · rcases List.mem_cons.mp hx with rfl | hx'
      · refine Or.inr ⟨x, ?_, eqPath_refl x⟩
        simp [dedupAux, hs]
      · rcases ih hx' (y :: seen) with ⟨s, hsmem, hseq⟩ | ⟨a, hamem, haeq⟩
        · rcases List.mem_cons.mp hsmem with rfl | hsmem'
          · refine Or.inr ⟨s, ?_, hseq⟩
            simp [dedupAux, hs]
          · exact Or.inl ⟨s, hsmem', hseq⟩
        · refine Or.inr ⟨a, ?_, haeq⟩
          simp only [dedupAux, hs, if_neg, Bool.not_eq_true]
          exact List.mem_cons_of_mem _ hamem

theorem pySet_subset {l : List FSyncPath} {x : FSyncPath} (h : x ∈ pySet l) : x ∈ l :=
  mem_of_mem_dedupAux h

theorem pySet_covers {l : List FSyncPath} {x : FSyncPath} (hx : x ∈ l) :
    ∃ a ∈ pySet l, eqPath a x = true := by
  rcases dedupAux_covers hx [] with ⟨s, hs, _⟩ | h
  · cases hs
  · exact h

theorem mem_setDiff {l r : List FSyncPath} {x : FSyncPath} :
    x ∈ setDiff l r ↔ x ∈ pySet l ∧ (r.any (fun q => eqPath x q)) = false := by
  simp [setDiff, List.mem_filter]

/-- Membership in either component of the delta, up to sorting. -/
theorem mem_calculateDelta_add {l r : List FSyncPath} {x : FSyncPath} :
    x ∈ (calculateDelta l r).1 ↔ x ∈ setDiff l r := by
  unfold calculateDelta
  exact (List.perm_insertionSort pathLe (setDiff l r)).mem_iff

theorem mem_calculateDelta_remove {l r : List FSyncPath} {x : FSyncPath} :
    x ∈ (calculateDelta l r).2 ↔ x ∈ setDiff r l := by
  unfold calculateDelta
  exact (List.perm_insertionSort pathLe (setDiff r l)).mem_iff

/-- The equivalence classes (under the dataclass equality) present in a set
difference are exactly those present in the left list and absent from the
right list. -/
theorem setDiff_class_iff {l r : List FSyncPath} {p : FSyncPath} :
    (∃ a ∈ setDiff l r, eqPath a p = true) ↔
      (∃ x ∈ l, eqPath x p = true) ∧ ¬ ∃ y ∈ r, eqPath y p = true := by
  constructor
  · rintro ⟨a, hamem, haeq⟩
    rcases mem_setDiff.mp hamem with ⟨hal, hnone⟩
    refine ⟨⟨a, pySet_subset hal, haeq⟩, ?_⟩
    rintro ⟨y, hymem, hyeq⟩
    have : eqPath a y = true := eqPath_trans haeq (eqPath_symm hyeq)
    have := List.any_eq_false.mp hnone y hymem
    simp_all
  · rintro ⟨⟨x, hxmem, hxeq⟩, hnone⟩
    rcases pySet_covers hxmem with ⟨a, hamem, haeq⟩
    have haeqp : eqPath a p = true := eqPath_trans haeq hxeq
    refine ⟨a, mem_setDiff.mpr ⟨hamem, ?_⟩, haeqp⟩
    rw [List.any_eq_false]
    intro y hymem
    simp only [Bool.not_eq_true]
    rcases h : eqPath a y with _ | _
    · rfl
    · exact absurd ⟨y, hymem, eqPath_trans (eqPath_symm h) haeqp⟩ hnone

/-- C1: for every local flat set and remote flat set of `FSyncPath`, the
delta computation returns `add = local - remote` and `remove = remote -
local`, where the set difference uses the equality rule that two entries
are equal iff `rel_path` and `size` both match (`path_type` and `abs_path`
excluded), and the returned `add` list is sorted ascending by `rel_path`.
The set equalities are stated on equivalence classes of the equality rule
(CPython sets collapse `==`-equal elements). -/
theorem C1_delta_is_setdiff_sorted (L R : List FSyncPath) :
    (∀ p : FSyncPath,
      (∃ a ∈ (calculateDelta L R).1, eqPath a p = true) ↔
        ((∃ x ∈ L, eqPath x p = true) ∧ ¬ ∃ y ∈ R, eqPath y p = true)) ∧
    (∀ p : FSyncPath,
      (∃ a ∈ (calculateDelta L R).2, eqPath a p = true) ↔
        ((∃ x ∈ R, eqPath x p = true) ∧ ¬ ∃ y ∈ L, eqPath y p = true)) ∧
    List.Pairwise (fun a b : FSyncPath => a.rel_path ≤ b.rel_path)
      (calculateDelta L R).1 := by
  refine ⟨?_, ?_, ?_⟩
  · intro p
    rw [← setDiff_class_iff]
    constructor
    · rintro ⟨a, ha, hq⟩
      exact ⟨a, mem_calculateDelta_add.mp ha, hq⟩
    · rintro ⟨a, ha, hq⟩
      exact ⟨a, mem_calculateDelta_add.mpr ha, hq⟩
  · intro p
    rw [← setDiff_class_iff]
    constructor
    · rintro ⟨a, ha, hq⟩
      exact ⟨a, mem_calculateDelta_remove.mp ha, hq⟩
    · rintro ⟨a, ha, hq⟩
      exact ⟨a, mem_calculateDelta_remove.mpr ha, hq⟩
  · have hs := List.sorted_insertionSort pathLe (setDiff L R)
    exact hs.imp (fun hab => by
      rcases hab with h | ⟨h, _⟩
      · exact le_of_lt h
      · exact le_of_eq h)

/-- Witness for C1 at a concrete input. -/
theorem C1_delta_is_setdiff_sorted_witness :
    (∀ p : FSyncPath,
      (∃ a ∈ (calculateDelta [⟨PathType.file, "a", "/s/a", 5⟩]
          [⟨PathType.file, "b", "", 7⟩]).1, eqPath a p = true) ↔
        ((∃ x ∈ [(⟨PathType.file, "a", "/s/a", 5⟩ : FSyncPath)], eqPath x p = true) ∧
          ¬ ∃ y ∈ [(⟨PathType.file, "b", "", 7⟩ : FSyncPath)], eqPath y p = true)) ∧
    (∀ p : FSyncPath,
      (∃ a ∈ (calculateDelta [⟨PathType.file, "a", "/s/a", 5⟩]
          [⟨PathType.file, "b", "", 7⟩]).2, eqPath a p = true) ↔
        ((∃ x ∈ [(⟨PathType.file, "b", "", 7⟩ : FSyncPath)], eqPath x p = true) ∧
          ¬ ∃ y ∈ [(⟨PathType.file, "a", "/s/a", 5⟩ : FSyncPath)], eqPath y p = true)) ∧
    List.Pairwise (fun a b : FSyncPath => a.rel_path ≤ b.rel_path)
      (calculateDelta [⟨PathType.file, "a", "/s/a", 5⟩]
        [⟨PathType.file, "b", "", 7⟩]).1 :=
  C1_delta_is_setdiff_sorted [⟨PathType.file, "a", "/s/a", 5⟩] [⟨PathType.file, "b", "", 7⟩]

/-- C4: a relative path present on both sides with different sizes lands in
both components of the delta, with the local size on the `add` side and the
remote size on the `remove` side.  The uniqueness hypotheses are the flat-set
invariant (one entry per relative path within a side). -/
theorem C4_size_change_in_both (L R : List FSyncPath) (lp rp : FSyncPath)
    (hl : lp ∈ L) (hr : rp ∈ R)
    (hpath : lp.rel_path = rp.rel_path) (hsize : lp.size ≠ rp.size)
    (huL : ∀ q ∈ L, q.rel_path = lp.rel_path → q = lp)
    (huR : ∀ q ∈ R, q.rel_path = rp.rel_path → q = rp) :
    (∃ a ∈ (calculateDelta L R).1, a.rel_path = lp.rel_path ∧ a.size = lp.size) ∧
    (∃ d ∈ (calculateDelta L R).2, d.rel_path = rp.rel_path ∧ d.size = rp.size) := by
  constructor
  · rcases pySet_covers hl with ⟨a, hamem, haeq⟩
    have haeq' := eqPath_iff.mp haeq
    refine ⟨a, mem_calculateDelta_add.mpr (mem_setDiff.mpr ⟨hamem, ?_⟩), haeq'.1, haeq'.2⟩
    rw [List.any_eq_false]
    intro q hq
    simp only [Bool.not_eq_true]
    rcases hcase : eqPath a q with _ | _
    · rfl
    · exfalso
      have hq' := eqPath_iff.mp hcase
      have : q = rp := huR q hq (by rw [← hq'.1, haeq'.1, hpath])
      exact hsize (by rw [← haeq'.2, hq'.2, this])
  · rcases pySet_covers hr with ⟨d, hdmem, hdeq⟩
    have hdeq' := eqPath_iff.mp hdeq
    refine ⟨d, mem_calculateDelta_remove.mpr (mem_setDiff.mpr ⟨hdmem, ?_⟩), hdeq'.1, hdeq'.2⟩
    rw [List.any_eq_false]
    intro q hq
    simp only [Bool.not_eq_true]
    rcases hcase : eqPath d q with _ | _
    · rfl
    · exfalso
      have hq' := eqPath_iff.mp hcase
      have : q = lp := huL q hq (by rw [← hq'.1, hdeq'.1, ← hpath])
      exact hsize (by rw [← hdeq'.2, hq'.2, this])

/-- Witness for C4: the spec's concrete scenario, local `(a/b.bin, 100)`
versus remote `(a/b.bin, 50)`, produces exactly `add=[(a/b.bin,100)]`
and `remove=[(a/b.bin,50)]`. -/
theorem C4_size_change_in_both_witness :
    calculateDelta [⟨PathType.file, "a/b.bin", "/s/a/b.bin", 100⟩]
        [⟨PathType.file, "a/b.bin", "", 50⟩] =
      ([⟨PathType.file, "a/b.bin", "/s/a/b.bin", 100⟩],
       [⟨PathType.file, "a/b.bin", "", 50⟩]) ∧
    (∃ a ∈ (calculateDelta [⟨PathType.file, "a/b.bin", "/s/a/b.bin", 100⟩]
        [⟨PathType.file, "a/b.bin", "", 50⟩]).1,
      a.rel_path = "a/b.bin" ∧ a.size = 100) ∧
    (∃ d ∈ (calculateDelta [⟨PathType.file, "a/b.bin", "/s/a/b.bin", 100⟩]
        [⟨PathType.file, "a/b.bin", "", 50⟩]).2,
      d.rel_path = "a/b.bin" ∧ d.size = 50) :=
  ⟨by decide,
   C4_size_change_in_both _ _ ⟨PathType.file, "a/b.bin", "/s/a/b.bin", 100⟩
     ⟨PathType.file, "a/b.bin", "", 50⟩ (by decide) (by decide) rfl (by decide)
     (by decide) (by decide)⟩

/-- C2 counterexample: the remove list returned by `_calculate_delta` itself
is sorted ascending by `rel_path` (so a directory precedes a file nested
under it) and is NOT sorted by `rel_path` length descending; the
length-descending sort happens only later, inside `_sync_delete`. -/
theorem C2_counterexample :
    (calculateDelta []
        [⟨PathType.directory, "d", "", 4096⟩, ⟨PathType.file, "d/x", "", 1⟩]).2 =
      [⟨PathType.directory, "d", "", 4096⟩, ⟨PathType.file, "d/x", "", 1⟩] ∧
    ¬ List.Pairwise lenGe
      (calculateDelta []
        [⟨PathType.directory, "d", "", 4096⟩, ⟨PathType.file, "d/x", "", 1⟩]).2 := by
  constructor
  · decide
  · intro h
    have h01 := (List.pairwise_iff_get.mp h) ⟨0, by decide⟩ ⟨1, by decide⟩ (by decide)
    revert h01
    decide

/-- C2 (amended): `_sync_delete` re-sorts the remove list by `rel_path`
length descending before processing it, so in the ordered list the
delete-phase walks, any entry whose path is nested under another entry's
path (the other path plus `/` is a prefix of it) comes strictly first. -/
theorem C2_delete_phase_order (paths : List FSyncPath) :
    List.Pairwise lenGe (deleteOrder paths) ∧
    ∀ (i j : Nat) (hi : i < (deleteOrder paths).length)
      (hj : j < (deleteOrder paths).length),
      strPre (((deleteOrder paths).get ⟨j, hj⟩).rel_path ++ "/")
          (((deleteOrder paths).get ⟨i, hi⟩).rel_path) = true →
      i < j := by
  have hs : List.Pairwise lenGe (deleteOrder paths) :=
    List.sorted_insertionSort lenGe paths
  refine ⟨hs, ?_⟩
  intro i j hi hj hpre
  have hpre' : (((deleteOrder paths).get ⟨j, hj⟩).rel_path ++ "/").data <+:
      (((deleteOrder paths).get ⟨i, hi⟩).rel_path).data :=
    List.isPrefixOf_iff_prefix.mp (by simpa [strPre] using hpre)
  have hlen : ((deleteOrder paths).get ⟨j, hj⟩).rel_path.length + 1 ≤
      ((deleteOrder paths).get ⟨i, hi⟩).rel_path.length := by
    have h := hpre'.length_le
    have h2 : (((deleteOrder paths).get ⟨j, hj⟩).rel_path ++ "/").length ≤
        ((deleteOrder paths).get ⟨i, hi⟩).rel_path.length := h
    rwa [String.length_append] at h2
  rcases Nat.lt_trichotomy i j with h | h | h
  · exact h
  · exfalso
    subst h
    omega
  · exfalso
    have hp := (List.pairwise_iff_get.mp hs) ⟨j, hj⟩ ⟨i, hi⟩ h
    have : ((deleteOrder paths).get ⟨i, hi⟩).rel_path.length ≤
        ((deleteOrder paths).get ⟨j, hj⟩).rel_path.length := hp
    omega

/-- Witness for C2 (amended) on the remove list of the counterexample:
in the processed order the nested file `d/x` precedes the directory `d`. -/
theorem C2_delete_phase_order_witness :
    List.Pairwise lenGe (deleteOrder
      [⟨PathType.directory, "d", "", 4096⟩, ⟨PathType.file, "d/x", "", 1⟩]) ∧
    (0 : Nat) < 1 :=
  ⟨(C2_delete_phase_order
      [⟨PathType.directory, "d", "", 4096⟩, ⟨PathType.file, "d/x", "", 1⟩]).1,
   (C2_delete_phase_order
      [⟨PathType.directory, "d", "", 4096⟩, ⟨PathType.file, "d/x", "", 1⟩]).2
     0 1 (by decide) (by decide) (by decide)⟩

theorem setDiff_eq_nil_of_matching {l r : List FSyncPath}
    (h : ∀ p ∈ l, ∃ q ∈ r, eqPath p q = true) : setDiff l r = [] := by
  unfold setDiff
  rw [List.filter_eq_nil_iff]
  intro a ha
  rcases h a (pySet_subset ha) with ⟨q, hq, heq⟩
  simp only [Bool.not_eq_true', Bool.not_eq_false]
  exact List.any_eq_true.mpr ⟨q, hq, heq⟩

/-- C3 (amended): the second reconciliation run computes an empty delta
exactly when the first pass has left the remote flat set matching the local
flat set under the path+size equality rule; this theorem is the general
matching-implies-empty-delta direction.  (The unconditional claim fails: a
successful pass does not always establish the matching, see the
counterexample.) -/
theorem C3_delta_empty_of_matching (L R : List FSyncPath)
    (hLR : ∀ p ∈ L, ∃ q ∈ R, eqPath p q = true)
    (hRL : ∀ q ∈ R, ∃ p ∈ L, eqPath q p = true) :
    calculateDelta L R = ([], []) := by
  unfold calculateDelta
  rw [setDiff_eq_nil_of_matching hLR, setDiff_eq_nil_of_matching hRL]
  rfl

/-- Witness for C3 (amended) at a concrete matching pair of flat sets. -/
theorem C3_delta_empty_of_matching_witness :
    calculateDelta
        [⟨PathType.file, "a", "/s/a", 5⟩, ⟨PathType.directory, "d", "/s/d", 4096⟩]
        [⟨PathType.file, "a", "", 5⟩, ⟨PathType.directory, "d", "", 4096⟩] =
      ([], []) :=
  C3_delta_empty_of_matching _ _ (by decide) (by decide)

/-- C3 counterexample: local tree `{a (5 bytes), d/e (empty dir chain)}`
against an empty remote.  The first pass succeeds (exit status 0, the file
is uploaded), yet the second run recomputes `add = [d]`: the directory `d`
is listed locally (it has a child) but was never created remotely (the
add-phase skips local directories), so the run is not idempotent. -/
theorem C3_counterexample :
    (fullRun "/s" "/t" [.file "a" 5, .dir "d" [.dir "e" []]] []).1 = 0 ∧
    (fullRun "/s" "/t" [.file "a" 5, .dir "d" [.dir "e" []]] []).2 = [RemTree.file "a" 5] ∧
    (calculateDelta (listSource "/s" [.file "a" 5, .dir "d" [.dir "e" []]])
        ((toList "/t"
          (listRemote ((fullRun "/s" "/t" [.file "a" 5, .dir "d" [.dir "e" []]] []).2))
          "").1)) =
      ([⟨PathType.directory, "d", "/s/d", 4096⟩], []) ∧
    ([⟨PathType.directory, "d", "/s/d", 4096⟩] : List FSyncPath) ≠ [] := by
  refine ⟨rfl, rfl, by decide, by decide⟩

/-- C6 counterexample: the local directory `d` whose only content is the
empty directory `e` has no descendant file, yet `_list_source` emits a
PathEntry for it (`os.listdir` is non-empty); only `e` itself is
skipped. -/
theorem C6_counterexample :
    hasDescFile (FsTree.dir "d" [FsTree.dir "e" []]) = false ∧
    listSource "/s" [FsTree.dir "d" [FsTree.dir "e" []]] =
      [⟨PathType.directory, "d", "/s/d", 4096⟩] := by
  refine ⟨rfl, rfl⟩

/-- C6 (amended): the local enumeration skips exactly the directories with
zero immediate children, at any depth; a directory with at least one child
is emitted even when no file lies below it. -/
theorem C6_empty_dir_skip (srcRoot pre n : String) (rest : List FsTree) :
    listSourceGo srcRoot pre (FsTree.dir n [] :: rest) = listSourceGo srcRoot pre rest ∧
    ∀ cs : List FsTree, cs ≠ [] →
      listSourceGo srcRoot pre (FsTree.dir n cs :: rest) =
        ⟨PathType.directory, joinPath pre n, joinPath srcRoot (joinPath pre n), 4096⟩ ::
          (listSourceGo srcRoot (joinPath pre n) cs ++ listSourceGo srcRoot pre rest) := by
  constructor
  · simp [listSourceGo, listSourceOne]
  · intro cs hcs
    simp [listSourceGo, listSourceOne, List.isEmpty_iff, hcs]

/-- Witness for C6 (amended). -/
theorem C6_empty_dir_skip_witness :
    listSourceGo "/s" "" [FsTree.dir "d" []] = listSourceGo "/s" "" [] ∧
    listSourceGo "/s" "" [FsTree.dir "d" [FsTree.file "x" 1]] =
      ⟨PathType.directory, joinPath "" "d", joinPath "/s" (joinPath "" "d"), 4096⟩ ::
        (listSourceGo "/s" (joinPath "" "d") [FsTree.file "x" 1] ++ listSourceGo "/s" "" []) :=
  ⟨(C6_empty_dir_skip "/s" "" "d" []).1,
   (C6_empty_dir_skip "/s" "" "d" []).2 [FsTree.file "x" 1] (List.cons_ne_nil _ _)⟩

theorem rdictDepth_deepRDict (n : Nat) : rdictDepth (deepRDict n) = n := by
  induction n with
  | zero => rfl
  | succ n ih => simp [deepRDict, rdictDepth, ih]

set_option maxRecDepth 4000 in
/-- C7 counterexample: with the program's recursion limit of 200 frames,
the flattening walk of a 250-level-deep remote tree runs out of stack
(`RecursionError`, modelled `none`): the walk is plain recursion bounded
by the hard ceiling `RECURSION_LIMIT = 200`, which is below "hundreds of
levels".  (`C7_fuel_below_limit` shows the same walk succeeds whenever
the nesting depth stays below the frame budget.) -/
theorem C7_counterexample :
    toListF RECURSION_LIMIT "/t" (deepRDict 250) "" = none ∧
    rdictDepth (deepRDict 250) = 250 := by
  exact ⟨rfl, rdictDepth_deepRDict 250⟩

theorem toListGoF_eq_toListGo (m : Nat) :
    ∀ d : RDict, sizeOf d ≤ m → ∀ (fuel : Nat) (cfg : String) (n : Nat) (p : String),
      rdictDepth d ≤ fuel → toListGoF fuel cfg n d p = some (toListGo cfg n d p) := by
  induction m with
  | zero =>
    intro d hd
    exfalso
    cases d <;> simp at hd
  | succ m ih =>
    intro d hd fuel cfg n p hdep
    cases d with
    | nil => rfl
    | cons k v rest =>
      cases v with
      | vfiles items =>
        have hrest : sizeOf rest ≤ m := by
          simp [RDict.cons.sizeOf_spec, RVal.vfiles.sizeOf_spec] at hd
          omega
        have hdep' : rdictDepth rest ≤ fuel := by
          simpa [rdictDepth] using hdep
        have hr := ih rest hrest fuel cfg n
          (if k != "files" then joinPath p k else p) hdep'
        by_cases hb : (n == 1 && rvalLen (RVal.vfiles items) == 0) = true
        · simp [toListGoF, toListGo, hb]
        · simp only [toListGoF, toListGo, hb, if_false, Bool.false_eq_true, if_neg,
            not_false_iff]
          rw [hr]
      | vdict sub =>
        have hsub : sizeOf sub ≤ m := by
          simp [RDict.cons.sizeOf_spec, RVal.vdict.sizeOf_spec] at hd
          omega
        have hrest : sizeOf rest ≤ m := by
          simp [RDict.cons.sizeOf_spec, RVal.vdict.sizeOf_spec] at hd
          omega
        have hdepsub : rdictDepth sub + 1 ≤ fuel := by
          simp [rdictDepth] at hdep
          omega
        have hdeprest : rdictDepth rest ≤ fuel := by
          simp [rdictDepth] at hdep
          omega
        cases fuel with
        | zero => omega
        | succ f =>
          have hs := ih sub hsub f cfg (rdictLen sub)
            (resetPath cfg (if k != "files" then joinPath p k else p)) (by omega)
          have hr := ih rest hrest (f + 1) cfg n
            (parentPath (if k != "files" then joinPath p k else p)) hdeprest
          by_cases hb : (n == 1 && rvalLen (RVal.vdict sub) == 0) = true
          · simp [toListGoF, toListGo, hb]
          · simp only [toListGoF, toListGo]
            rw [hs, hr]
            simp [hb]

/-- C7 (amended): the flattening walk is recursion bounded by the frame
budget; with a budget strictly above the tree's nesting depth it completes
and computes exactly the unbounded walk's result.  Combined with the
counterexample: the ceiling `RECURSION_LIMIT = 200` set by the program is
what a 250-deep tree overflows. -/
theorem C7_fuel_below_limit (fuel : Nat) (cfg : String) (d : RDict) (p : String)
    (h : rdictDepth d < fuel) :
    toListF fuel cfg d p = some (toList cfg d p) := by
  cases fuel with
  | zero => omega
  | succ f =>
    show toListGoF f cfg (rdictLen d) d (resetPath cfg p) = _
    rw [toListGoF_eq_toListGo (sizeOf d) d le_rfl f cfg (rdictLen d) (resetPath cfg p)
      (by omega)]
    rfl

/-- Witness for C7 (amended): a 10-deep tree is flattened successfully
under the 200-frame budget. -/
theorem C7_fuel_below_limit_witness :
    toListF RECURSION_LIMIT "/t" (deepRDict 10) "" = some (toList "/t" (deepRDict 10) "") :=
  C7_fuel_below_limit RECURSION_LIMIT "/t" (deepRDict 10) "" (by decide)

theorem syncDeleteGo_trace (okF okD : String → Bool) (tgt : String) :
    ∀ (l1 : List FSyncPath) (f : FSyncPath) (l2 : List FSyncPath)
      (tr : List (String × PathType)),
      (∀ p ∈ l1, opOk okF okD tgt p = true) → opOk okF okD tgt f = false →
      syncDeleteGo (traceSession okF okD) tgt tr (l1 ++ f :: l2) =
        (tr ++ (l1 ++ [f]).map (fun p => (tgt ++ "/" ++ p.rel_path, p.path_type)), false) := by
  intro l1
  induction l1 with
  | nil =>
    intro f l2 tr _ hf
    cases hpt : f.path_type with
    | file =>
      simp only [opOk, hpt] at hf
      simp [syncDeleteGo, traceSession, hpt, hf]
    | directory =>
      simp only [opOk, hpt] at hf
      simp [syncDeleteGo, traceSession, hpt, hf]
  | cons p l1 ih =>
    intro f l2 tr h1 hf
    have hp : opOk okF okD tgt p = true := h1 p (List.mem_cons_self _ _)
    have h1' : ∀ q ∈ l1, opOk okF okD tgt q = true :=
      fun q hq => h1 q (List.mem_cons_of_mem _ hq)
    cases hpt : p.path_type with
    | file =>
      simp only [opOk, hpt] at hp
      have hrec := ih f l2 (tr ++ [(tgt ++ "/" ++ p.rel_path, PathType.file)]) h1' hf
      simp only [traceSession] at hrec
      simp [syncDeleteGo, traceSession, hpt, hp, hrec, List.append_assoc]
    | directory =>
      simp only [opOk, hpt] at hp
      have hrec := ih f l2 (tr ++ [(tgt ++ "/" ++ p.rel_path, PathType.directory)]) h1' hf
      simp only [traceSession] at hrec
      simp [syncDeleteGo, traceSession, hpt, hp, hrec, List.append_assoc]

/-- C8: during the delete-phase any single failure aborts the whole pass:
the attempted operations are exactly those up to and including the first
failing one (none of the remaining queued deletions is attempted), the
phase reports failure, and `main` then exits with status 1. -/
theorem C8_delete_fail_fast (okF okD : String → Bool) (tgt : String)
    (paths l1 l2 : List FSyncPath) (f : FSyncPath)
    (hsplit : deleteOrder paths = l1 ++ f :: l2)
    (h1 : ∀ p ∈ l1, opOk okF okD tgt p = true)
    (hf : opOk okF okD tgt f = false) :
    syncDelete (traceSession okF okD) tgt [] paths =
      ((l1 ++ [f]).map (fun p => (tgt ++ "/" ++ p.rel_path, p.path_type)), false) ∧
    ∀ {σ : Type} (S : Session σ) (s0 : σ) (lfs : LocalFS) (srcDir tgtDir : String)
      (sp : List FSyncPath) (remote : RDict),
      (calculateDelta sp ((toList tgtDir remote "").1)).2 ≠ [] →
      (syncDelete S tgtDir s0 (calculateDelta sp ((toList tgtDir remote "").1)).2).2 = false →
      (mainModel S s0 lfs srcDir tgtDir sp remote).1 = 1 := by
  constructor
  · unfold syncDelete
    rw [hsplit]
    simpa using syncDeleteGo_trace okF okD tgt l1 f l2 [] h1 hf
  · intro σ S s0 lfs srcDir tgtDir sp remote hne hfail
    have hne' : (calculateDelta sp ((toList tgtDir remote "").1)).2.isEmpty = false := by
      cases h : (calculateDelta sp ((toList tgtDir remote "").1)).2 with
      | nil => exact absurd h hne
      | cons a l => simp
    simp only [mainModel, hne', Bool.false_eq_true, if_false, hfail, Bool.not_false,
      if_true]

/-- Witness for C8: a one-file remove list whose delete fails; the trace
holds exactly that attempt, and `main` (run against a server that does not
have the file) exits 1. -/
theorem C8_delete_fail_fast_witness :
    syncDelete (traceSession (fun _ => false) (fun _ => false)) "/t" []
        [⟨PathType.file, "x", "", 1⟩] = ([("/t/x", PathType.file)], false) ∧
    (mainModel (serverSession "/t") ([] : List RemTree) (lfsOf "/s" []) "/s" "/t" []
        (listRemote [RemTree.file "x" 1])).1 = 1 := by
  have h := C8_delete_fail_fast (fun _ => false) (fun _ => false) "/t"
    [⟨PathType.file, "x", "", 1⟩] [] [] ⟨PathType.file, "x", "", 1⟩
    (by decide) (by intro p hp; cases hp) (by decide)
  exact ⟨h.1, h.2 (serverSession "/t") [] (lfsOf "/s" []) "/s" "/t" []
    (listRemote [RemTree.file "x" 1]) (by decide) (by decide)⟩

theorem syncAddGo_all_dirs {σ : Type} (S : Session σ) (tgt : String) (lfs : LocalFS)
    (srcDir : String) :
    ∀ (paths : List FSyncPath) (s : σ) (acc : Nat),
      (∀ it ∈ paths, lfs.isDir (srcDir ++ "/" ++ it.rel_path) = true) →
      syncAddGo S tgt lfs srcDir s paths acc = (s, .bytes acc) := by
  intro paths
  induction paths with
  | nil => intro s acc _; rfl
  | cons it rest ih =>
    intro s acc h
    have hit : lfs.isDir (srcDir ++ "/" ++ it.rel_path) = true :=
      h it (List.mem_cons_self _ _)
    have h' : ∀ q ∈ rest, lfs.isDir (srcDir ++ "/" ++ q.rel_path) = true :=
      fun q hq => h q (List.mem_cons_of_mem _ hq)
    simp [syncAddGo, hit, ih s acc h']

/-- C9: when every entry of a non-empty add list resolves to a local
directory, `_sync_add` performs no remote operation (the session state is
returned untouched) and returns the float `0.0` (`bytes 0`); `main` takes
`not bytes_transferred` to be a failure and exits with status 1 although
nothing failed.  The empty remove list pins down that the delete phase
performed no operation either. -/
theorem C9_all_dirs_add_fails {σ : Type} (S : Session σ) (s0 : σ) (lfs : LocalFS)
    (srcDir tgtDir : String) (sp : List FSyncPath) (remote : RDict)
    (hrem : (calculateDelta sp ((toList tgtDir remote "").1)).2 = [])
    (hadd : (calculateDelta sp ((toList tgtDir remote "").1)).1 ≠ [])
    (hdirs : ∀ it ∈ (calculateDelta sp ((toList tgtDir remote "").1)).1,
      lfs.isDir (srcDir ++ "/" ++ it.rel_path) = true) :
    syncAdd S tgtDir lfs srcDir s0 (calculateDelta sp ((toList tgtDir remote "").1)).1 =
      (s0, .bytes 0) ∧
    mainModel S s0 lfs srcDir tgtDir sp remote = (1, s0) := by
  have hrun : syncAdd S tgtDir lfs srcDir s0
      (calculateDelta sp ((toList tgtDir remote "").1)).1 = (s0, .bytes 0) :=
    syncAddGo_all_dirs S tgtDir lfs srcDir _ s0 0 hdirs
  refine ⟨hrun, ?_⟩
  have hadd' : (calculateDelta sp ((toList tgtDir remote "").1)).1.isEmpty = false := by
    cases h : (calculateDelta sp ((toList tgtDir remote "").1)).1 with
    | nil => exact absurd h hadd
    | cons a l => simp
  simp only [mainModel, hrem, List.isEmpty_nil, if_true, Bool.not_true, Bool.true_eq_false,
    if_false, hadd', hrun, truthyAdd]
  simp

/-- Witness for C9: local add list `[d]` (a directory) against an empty
remote; `_sync_add` returns `0.0` and `main` exits 1 with the server left
untouched. -/
theorem C9_all_dirs_add_fails_witness :
    syncAdd (serverSession "/t") "/t" (lfsOf "/s" [.dir "d" [.dir "e" []]]) "/s"
        ([] : List RemTree)
        (calculateDelta [⟨PathType.directory, "d", "/s/d", 4096⟩]
          ((toList "/t" RDict.nil "").1)).1 = ([], .bytes 0) ∧
    mainModel (serverSession "/t") ([] : List RemTree)
        (lfsOf "/s" [.dir "d" [.dir "e" []]]) "/s" "/t"
        [⟨PathType.directory, "d", "/s/d", 4096⟩] RDict.nil = (1, []) :=
  C9_all_dirs_add_fails (serverSession "/t") [] (lfsOf "/s" [.dir "d" [.dir "e" []]])
    "/s" "/t" [⟨PathType.directory, "d", "/s/d", 4096⟩] RDict.nil
    (by decide) (by decide) (by decide)

theorem dropWhile_append_all {α : Type} (q : α → Bool) (xs ys : List α)
    (h : ∀ x ∈ xs, q x = true) :
    (xs ++ ys).dropWhile q = ys.dropWhile q := by
  induction xs with
  | nil => rfl
  | cons a l ih =>
    have ha := h a (List.mem_cons_self _ _)
    simp only [List.cons_append, List.dropWhile_cons, ha, if_true]
    exact ih fun x hx => h x (List.mem_cons_of_mem _ hx)

theorem string_mk_data (s : String) : String.mk s.data = s := rfl

theorem parentPath_join (p k : String) (_hk0 : k ≠ "")
    (hk : k.data.all (fun c => c != '/') = true) :
    parentPath (joinPath p k) = p := by
  have hkall : ∀ c ∈ k.data.reverse, (c != '/') = true := by
    intro c hc
    exact List.all_eq_true.mp hk c (List.mem_reverse.mp hc)
  by_cases hp : (p == "") = true
  · have hp' : p = "" := by simpa using hp
    subst hp'
    simp only [joinPath, hp, if_true, parentPath]
    rw [List.dropWhile_eq_nil_iff.mpr (fun c hc => hkall c hc)]
    rfl
  · simp only [joinPath, hp, if_false, Bool.false_eq_true, parentPath]
    have hdata : (p ++ "/" ++ k).data = (p.data ++ ['/']) ++ k.data := by
      rw [String.data_append, String.data_append]
    rw [hdata, List.reverse_append, List.reverse_append]
    simp only [List.reverse_cons, List.reverse_nil, List.nil_append, List.singleton_append]
    rw [dropWhile_append_all _ _ _ hkall]
    simp [string_mk_data]

theorem joinPath_ne_empty (p k : String) (hk : k ≠ "") : joinPath p k ≠ "" := by
  by_cases hp : (p == "") = true
  · simpa [joinPath, hp] using hk
  · simp only [joinPath, hp, if_false, Bool.false_eq_true]
    intro hcon
    have : (p ++ "/" ++ k).data = [] := by rw [hcon]
    rw [String.data_append, String.data_append] at this
    simp at this

theorem joinPath_head (p k : String) (hp : goodP p = true) (_hk0 : k ≠ "")
    (hkh : k.data.head? ≠ some '/') :
    goodP (joinPath p k) = true := by
  by_cases hpe : (p == "") = true
  · simpa [joinPath, hpe, goodP] using hkh
  · have hpne : p ≠ "" := by simpa using hpe
    have hpd : p.data ≠ [] := by
      intro hc
      apply hpne
      cases p
      exact congrArg String.mk hc
    simp only [joinPath, hpe, if_false, Bool.false_eq_true]
    obtain ⟨c, cs, hcs⟩ : ∃ c cs, p.data = c :: cs := by
      cases hd : p.data with
      | nil => exact absurd hd hpd
      | cons c cs => exact ⟨c, cs, rfl⟩
    have hdata : (p ++ "/" ++ k).data = c :: (cs ++ '/' :: k.data) := by
      rw [String.data_append, String.data_append, hcs]
      simp
    simp only [goodP] at hp ⊢
    rw [hdata]
    rw [hcs] at hp
    simpa using hp

theorem ne_cfg_of_goodP (cfg x : String) (hc : cfgOk cfg = true) (hx : goodP x = true) :
    x ≠ cfg := by
  intro hcon
  subst hcon
  simp only [cfgOk, goodP] at hc hx
  rw [beq_iff_eq] at hc
  rw [hc] at hx
  simp at hx

theorem resetPath_id (cfg x : String) (h : x ≠ cfg) : resetPath cfg x = x := by
  simp [resetPath, h]

theorem wfKey_head (k : String) (hk : wfKey k = true) :
    k ≠ "" ∧ k.data.head? ≠ some '/' ∧ k ≠ "files" ∧
      k.data.all (fun c => c != '/') = true := by
  simp only [wfKey, Bool.and_eq_true, bne_iff_ne, ne_eq, Bool.not_eq_true] at hk
  obtain ⟨⟨hkf, hke⟩, hkall⟩ := hk
  refine ⟨hke, ?_, hkf, hkall⟩
  cases hd : k.data with
  | nil => simp
  | cons c cs =>
    have hc := List.all_eq_true.mp hkall c (by rw [hd]; exact List.mem_cons_self _ _)
    simp only [hd, List.head?_cons, ne_eq, Option.some.injEq]
    intro hcon
    rw [hcon] at hc
    simp at hc

theorem toListGo_wf (m : Nat) :
    ∀ d : RDict, sizeOf d ≤ m → ∀ (cfg p : String), cfgOk cfg = true → goodP p = true →
      (wfDict d = true →
        toListGo cfg (rdictLen d) d p = (flattenSpec d p, specMutate d p)) ∧
      (∀ n : Nat, wfSubs d = true → (n == 1) = false →
        toListGo cfg n d p = (flattenSpec d p, specMutate d p)) := by
  induction m with
  | zero =>
    intro d hd
    exfalso
    cases d <;> simp at hd
  | succ m ih =>
    intro d hd cfg p hcfg hp
    cases d with
    | nil => exact ⟨fun _ => rfl, fun n _ _ => rfl⟩
    | cons k v rest =>
      have hsize := hd
      simp only [RDict.cons.sizeOf_spec] at hsize
      have hrest : sizeOf rest ≤ m := by omega
      constructor
      · intro hw
        cases v with
        | vdict sub => simp [wfDict] at hw
        | vfiles items =>
          simp only [wfDict, Bool.and_eq_true, beq_iff_eq] at hw
          obtain ⟨⟨hk, _⟩, hsubs⟩ := hw
          subst hk
          cases rest with
          | nil =>
            by_cases hi : items = []
            · subst hi
              simp [toListGo, rdictLen, rvalLen, flattenSpec, specMutate]
            · have hlen : (List.length items == 0) = false := by
                rw [beq_eq_false_iff_ne]
                simpa using hi
              simp [toListGo, rdictLen, rvalLen, flattenSpec, specMutate, hlen]
          | cons k2 v2 rest2 =>
            have hn : ((rdictLen (RDict.cons k2 v2 rest2) + 1 : Nat) == 1) = false := by
              rw [beq_eq_false_iff_ne]
              have : rdictLen (RDict.cons k2 v2 rest2) = rdictLen rest2 + 1 := rfl
              omega
            have hres := (ih (RDict.cons k2 v2 rest2) hrest cfg p hcfg hp).2
              (rdictLen (RDict.cons k2 v2 rest2) + 1) hsubs hn
            simp only [rdictLen] at hres ⊢
            simp [toListGo, hn, hres, flattenSpec, specMutate]
      · intro n hw hn
        cases v with
        | vfiles items => simp [wfSubs] at hw
        | vdict sub =>
          simp only [wfSubs, Bool.and_eq_true] at hw
          obtain ⟨⟨hkey, hwsub⟩, hsubs⟩ := hw
          obtain ⟨hk0, hkh, hkf, hkall⟩ := wfKey_head k hkey
          have hsub_size : sizeOf sub ≤ m := by
            simp only [RVal.vdict.sizeOf_spec] at hsize
            omega
          have hkneq : (k != "files") = true := by simpa [bne_iff_ne] using hkf
          have hjne : joinPath p k ≠ "" := joinPath_ne_empty p k hk0
          have hjgood : goodP (joinPath p k) = true := joinPath_head p k hp hk0 hkh
          have hjcfg : joinPath p k ≠ cfg := ne_cfg_of_goodP cfg _ hcfg hjgood
          have hreset : resetPath cfg (joinPath p k) = joinPath p k :=
            resetPath_id cfg _ hjcfg
          have hparent : parentPath (joinPath p k) = p := parentPath_join p k hk0 hkall
          have hsubres := (ih sub hsub_size cfg (joinPath p k) hcfg hjgood).1 hwsub
          have hrestres := (ih rest hrest cfg p hcfg hp).2 n hsubs hn
          simp [toListGo, hn, hkneq, hjne, hreset, hparent, hsubres, hrestres,
            flattenSpec, specMutate]

theorem goodP_iff (x : String) : goodP x = true ↔ x.data.head? ≠ some '/' := by
  simp [goodP]

theorem flattenSpec_entries (m : Nat) :
    ∀ d : RDict, sizeOf d ≤ m → ∀ p : String, goodP p = true →
      ((wfDict d = true → wfNames d = true →
        ∀ e ∈ flattenSpec d p, e.rel_path ≠ "" ∧ e.rel_path.data.head? ≠ some '/') ∧
       (wfSubs d = true → wfNames d = true →
        ∀ e ∈ flattenSpec d p, e.rel_path ≠ "" ∧ e.rel_path.data.head? ≠ some '/')) := by
  induction m with
  | zero =>
    intro d hd
    exfalso
    cases d <;> simp at hd
  | succ m ih =>
    intro d hd p hp
    cases d with
    | nil => exact ⟨fun _ _ e he => by simp [flattenSpec] at he,
        fun _ _ e he => by simp [flattenSpec] at he⟩
    | cons k v rest =>
      have hsize := hd
      simp only [RDict.cons.sizeOf_spec] at hsize
      have hrest : sizeOf rest ≤ m := by omega
      constructor
      · intro hw hn e he
        cases v with
        | vdict sub => simp [wfDict] at hw
        | vfiles items =>
          simp only [wfDict, Bool.and_eq_true, beq_iff_eq] at hw
          obtain ⟨⟨_, _⟩, hsubs⟩ := hw
          simp only [wfNames, Bool.and_eq_true] at hn
          obtain ⟨hitems, hnrest⟩ := hn
          simp only [flattenSpec, List.mem_append, List.mem_map] at he
          rcases he with ⟨it, hitmem, rfl⟩ | he
          · have hit := List.all_eq_true.mp hitems it hitmem
            simp only [Bool.and_eq_true, bne_iff_ne, ne_eq] at hit
            obtain ⟨hit0, hith⟩ := hit
            have hith' : it.rel_path.data.head? ≠ some '/' := by
              intro hcon
              exact hith (by simp [hcon])
            refine ⟨joinPath_ne_empty p it.rel_path hit0, ?_⟩
            exact (goodP_iff _).mp (joinPath_head p it.rel_path hp hit0 hith')
          · exact (ih rest hrest p hp).2 hsubs hnrest e he
      · intro hw hn e he
        cases v with
        | vfiles items => simp [wfSubs] at hw
        | vdict sub =>
          simp only [wfSubs, Bool.and_eq_true] at hw
          obtain ⟨⟨hkey, hwsub⟩, hsubs⟩ := hw
          simp only [wfNames, Bool.and_eq_true] at hn
          obtain ⟨hnsub, hnrest⟩ := hn
          obtain ⟨hk0, hkh, _, _⟩ := wfKey_head k hkey
          have hsub_size : sizeOf sub ≤ m := by
            simp only [RVal.vdict.sizeOf_spec] at hsize
            omega
          have hjgood : goodP (joinPath p k) = true := joinPath_head p k hp hk0 hkh
          simp only [flattenSpec, List.mem_cons, List.mem_append] at he
          rcases he with rfl | he | he
          · exact ⟨joinPath_ne_empty p k hk0, (goodP_iff _).mp hjgood⟩
          · exact (ih sub hsub_size (joinPath p k) hjgood).1 hwsub hnsub e he
          · exact (ih rest hrest p hp).2 hsubs hnrest e he

theorem strPre_cfg_false (cfg x : String) (hc : cfgOk cfg = true) (hx0 : x ≠ "")
    (hxh : x.data.head? ≠ some '/') : strPre cfg x = false := by
  cases hcd : cfg.data with
  | nil =>
    exfalso
    simp only [cfgOk, hcd] at hc
    simp at hc
  | cons c cs =>
    have hc' : c = '/' := by
      simp only [cfgOk, hcd, List.head?_cons] at hc
      simpa using hc
    cases hxd : x.data with
    | nil =>
      exfalso
      apply hx0
      cases x
      exact congrArg String.mk hxd
    | cons b bs =>
      have hb : b ≠ '/' := by
        intro hcon
        exact hxh (by simp [hxd, hcon])
      unfold strPre
      rw [hcd, hxd, hc']
      simp only [List.isPrefixOf, Bool.and_eq_false_iff]
      left
      rw [beq_eq_false_iff_ne]
      exact fun hcon => hb hcon.symm

/-- C5: on every well-formed remote listing (the shape `_list_remote`
produces), `_to_list` called from the root (empty prefix) computes exactly
the depth-first flattening described by the claim — `"files"` values emit
one File entry per listed name with path `prefix + name` and the listed
size, every other key emits one Directory entry for the extended prefix and
recurses with it, restoring the prefix afterwards — and the configured
synchronization root never occurs (as a prefix) in any emitted relative
path.  `cfgOk` says the target directory is an absolute path (starts with
`/`), so the mid-walk prefix reset can never fire spuriously. -/
theorem C5_flattener_spec (cfg : String) (s : RDict)
    (hc : cfgOk cfg = true) (hw : wfDict s = true) :
    (toList cfg s "").1 = flattenSpec s "" ∧
    (wfNames s = true → ∀ e ∈ (toList cfg s "").1, strPre cfg e.rel_path = false) := by
  have hreset : resetPath cfg "" = "" := by
    apply resetPath_id
    intro hcon
    rw [← hcon] at hc
    simp [cfgOk] at hc
  have hmain := (toListGo_wf (sizeOf s) s le_rfl cfg "" hc (by decide)).1 hw
  have h1 : (toList cfg s "").1 = flattenSpec s "" := by
    show (toListGo cfg (rdictLen s) s (resetPath cfg "")).1 = _
    rw [hreset, hmain]
  refine ⟨h1, ?_⟩
  intro hn e he
  rw [h1] at he
  have hent := (flattenSpec_entries (sizeOf s) s le_rfl "" (by decide)).1 hw hn e he
  exact strPre_cfg_false cfg e.rel_path hc hent.1 hent.2

/-- Witness for C5 on a concrete two-level listing with target directory
`/m` whose name collides with a remote directory name. -/
theorem C5_flattener_spec_witness :
    (toList "/m" (RDict.cons "files" (RVal.vfiles [⟨PathType.file, "a", "", 5⟩])
        (RDict.cons "m" (RVal.vdict (RDict.cons "files"
          (RVal.vfiles [⟨PathType.file, "x", "", 7⟩]) RDict.nil)) RDict.nil)) "").1 =
      flattenSpec (RDict.cons "files" (RVal.vfiles [⟨PathType.file, "a", "", 5⟩])
        (RDict.cons "m" (RVal.vdict (RDict.cons "files"
          (RVal.vfiles [⟨PathType.file, "x", "", 7⟩]) RDict.nil)) RDict.nil)) "" ∧
    strPre "/m" (⟨PathType.file, "m/x", "", 7⟩ : FSyncPath).rel_path = false :=
  ⟨(C5_flattener_spec "/m" _ (by decide) (by decide)).1,
   (C5_flattener_spec "/m" (RDict.cons "files" (RVal.vfiles [⟨PathType.file, "a", "", 5⟩])
        (RDict.cons "m" (RVal.vdict (RDict.cons "files"
          (RVal.vfiles [⟨PathType.file, "x", "", 7⟩]) RDict.nil)) RDict.nil))
      (by decide) (by decide)).2 (by decide) ⟨PathType.file, "m/x", "", 7⟩ (by decide)⟩

/-- C10: `_to_list` is not side-effect free on its input: the dict it
leaves behind has every file entry's `rel_path` rebound in place to the
prefix-joined path (`specMutate`), and a second call on the same structure
prefixes again — on the concrete listing `{files: [], d: {files: [x]}}`
the first call returns `d/x` while the second returns `d/d/x`, not the
same flat set. -/
theorem C10_toList_mutates (cfg : String) (s : RDict)
    (hc : cfgOk cfg = true) (hw : wfDict s = true) :
    (toList cfg s "").2 = specMutate s "" ∧
    (toList "/t" (RDict.cons "files" (RVal.vfiles [])
        (RDict.cons "d" (RVal.vdict (RDict.cons "files"
          (RVal.vfiles [⟨PathType.file, "x", "", 7⟩]) RDict.nil)) RDict.nil)) "").1 =
      [⟨PathType.directory, "d", "", 4096⟩, ⟨PathType.file, "d/x", "", 7⟩] ∧
    (toList "/t" ((toList "/t" (RDict.cons "files" (RVal.vfiles [])
        (RDict.cons "d" (RVal.vdict (RDict.cons "files"
          (RVal.vfiles [⟨PathType.file, "x", "", 7⟩]) RDict.nil)) RDict.nil)) "").2) "").1 =
      [⟨PathType.directory, "d", "", 4096⟩, ⟨PathType.file, "d/d/x", "", 7⟩] := by
  refine ⟨?_, by decide, by decide⟩
  have hreset : resetPath cfg "" = "" := by
    apply resetPath_id
    intro hcon
    rw [← hcon] at hc
    simp [cfgOk] at hc
  have hmain := (toListGo_wf (sizeOf s) s le_rfl cfg "" hc (by decide)).1 hw
  show (toListGo cfg (rdictLen s) s (resetPath cfg "")).2 = _
  rw [hreset, hmain]

/-- Witness for C10 at the concrete listing. -/
theorem C10_toList_mutates_witness :
    (toList "/t" (RDict.cons "files" (RVal.vfiles [])
        (RDict.cons "d" (RVal.vdict (RDict.cons "files"
          (RVal.vfiles [⟨PathType.file, "x", "", 7⟩]) RDict.nil)) RDict.nil)) "").2 =
      specMutate (RDict.cons "files" (RVal.vfiles [])
        (RDict.cons "d" (RVal.vdict (RDict.cons "files"
          (RVal.vfiles [⟨PathType.file, "x", "", 7⟩]) RDict.nil)) RDict.nil)) "" :=
  (C10_toList_mutates "/t" (RDict.cons "files" (RVal.vfiles [])
      (RDict.cons "d" (RVal.vdict (RDict.cons "files"
        (RVal.vfiles [⟨PathType.file, "x", "", 7⟩]) RDict.nil)) RDict.nil))
    (by decide) (by decide)).1
